import Mathlib

/-!
Verification development for the finance statement-processing repository.

Shallow embedding conventions:
* monetary amounts (Python `Decimal`) are rationals (`Rat`), since all
  Decimal arithmetic in the source is exact;
* calendar dates are integers (`Int`) — only their ordering matters to the
  verified code paths (we encode concrete dates as `yyyymmdd` numerals);
* pandas DataFrames are lists of row structures;
* Python exceptions are `Except` errors whose payload carries the data
  interpolated into the exception message.
-/

namespace FinSpec

/-! ### `commons.sort_df_by_date` (src/3_extract_data/commons.py)

`sort_df_by_date` stores the original index in a helper column, sorts by
`[sorting_date_col, "original_index"]` with `ascending=[True, False]`, and
drops the helper column.  The sort key — date ascending, original index
descending — is total and antisymmetric on index-tagged rows, so the result
is the unique sorted arrangement regardless of the sorting algorithm pandas
uses. -/

structure TxRow where
  date : Int
  description : String
deriving DecidableEq, Repr

/-- The pandas sort key of `sort_df_by_date`: date ascending with the
original index descending as tie-breaker. -/
def rowKeyLE (a b : Nat × TxRow) : Prop :=
  a.2.date < b.2.date ∨ (a.2.date = b.2.date ∧ b.1 ≤ a.1)

instance : DecidableRel rowKeyLE := fun a b => by
  unfold rowKeyLE; infer_instance

instance : IsTotal (Nat × TxRow) rowKeyLE where
  total a b := by
    rcases lt_trichotomy a.2.date b.2.date with h | h | h
    · exact Or.inl (Or.inl h)
    · rcases Nat.le_total b.1 a.1 with h' | h'
      · exact Or.inl (Or.inr ⟨h, h'⟩)
      · exact Or.inr (Or.inr ⟨h.symm, h'⟩)
    · exact Or.inr (Or.inl h)

instance : IsTrans (Nat × TxRow) rowKeyLE where
  trans a b c hab hbc := by
    rcases hab with h1 | ⟨e1, i1⟩
    · rcases hbc with h2 | ⟨e2, _⟩
      · exact Or.inl (h1.trans h2)
      · exact Or.inl (e2 ▸ h1)
    · rcases hbc with h2 | ⟨e2, i2⟩
      · exact Or.inl (e1 ▸ h2)
      · exact Or.inr ⟨e1.trans e2, i2.trans i1⟩

/-- The index-tagged intermediate of `sort_df_by_date`: rows paired with
`original_index` and sorted by the pandas key. -/
def sortWithIndex (rows : List TxRow) : List (Nat × TxRow) :=
  List.insertionSort rowKeyLE rows.enum

/-- `sort_df_by_date`: sort by date ascending, original index descending,
then drop the `original_index` column. -/
def sort_df_by_date (rows : List TxRow) : List TxRow :=
  (sortWithIndex rows).map Prod.snd

/-- C10: `sort_df_by_date` sorts by date ascending with the original row
index descending as tie-breaker, so rows sharing the same date appear in
the reverse of their original relative order: for original positions
`i < j` with equal dates, row `j` is placed strictly before row `i`, and
the final output is the index-tagged sorted list with the index column
dropped. -/
theorem c10_sort_reverses_same_date_order (rows : List TxRow) (i j : ℕ)
    (hi : i < rows.length) (hj : j < rows.length) (hij : i < j)
    (hdate : (rows.get ⟨i, hi⟩).date = (rows.get ⟨j, hj⟩).date) :
    (∀ u v, (hu : u < (sortWithIndex rows).length) →
        (hv : v < (sortWithIndex rows).length) →
        (sortWithIndex rows)[u] = (j, rows.get ⟨j, hj⟩) →
        (sortWithIndex rows)[v] = (i, rows.get ⟨i, hi⟩) → u < v) ∧
    (∃ u v, ∃ (hu : u < (sortWithIndex rows).length)
        (hv : v < (sortWithIndex rows).length),
        (sortWithIndex rows)[u] = (j, rows.get ⟨j, hj⟩) ∧
        (sortWithIndex rows)[v] = (i, rows.get ⟨i, hi⟩)) ∧
    sort_df_by_date rows = (sortWithIndex rows).map Prod.snd := by
  set p : Nat × TxRow := (j, rows.get ⟨j, hj⟩) with hp
  set q : Nat × TxRow := (i, rows.get ⟨i, hi⟩) with hq
  set s := sortWithIndex rows with hs
  have hperm : s.Perm rows.enum := List.perm_insertionSort _ _
  have hsorted : List.Pairwise rowKeyLE s := List.sorted_insertionSort _ _
  have hpm : p ∈ s := hperm.mem_iff.2 (by
    rw [hp, List.mk_mem_enum_iff_getElem?]
    simp [List.getElem?_eq_getElem hj])
  have hqm : q ∈ s := hperm.mem_iff.2 (by
    rw [hq, List.mk_mem_enum_iff_getElem?]
    simp [List.getElem?_eq_getElem hi])
  refine ⟨?_, ?_, rfl⟩
  · intro u v hu hv hup hvq
    rcases lt_trichotomy u v with h | h | h
    · exact h
    · exfalso
      subst h
      have hpq : p = q := hup.symm.trans hvq
      have : j = i := congrArg Prod.fst hpq
      omega
    · exfalso
      have hr : rowKeyLE s[v] s[u] :=
        (List.pairwise_iff_getElem.1 hsorted) _ _ hv hu h
      rw [hup, hvq] at hr
      have hdate' : rows[i].date = rows[j].date := hdate
      rcases hr with hlt | ⟨_, hle⟩
      · exact absurd hlt (by simp [hq, hp, hdate'])
      · refine absurd hle ?_
        simp only [hq, hp]
        omega
  · obtain ⟨u, hu, hup⟩ := List.mem_iff_getElem.1 hpm
    obtain ⟨v, hv, hvq⟩ := List.mem_iff_getElem.1 hqm
    exact ⟨u, v, hu, hv, hup, hvq⟩

theorem c10_sort_reverses_same_date_order_witness :
    ∃ u v, ∃ (hu : u < (sortWithIndex [⟨5, "a"⟩, ⟨5, "b"⟩]).length)
      (hv : v < (sortWithIndex [⟨5, "a"⟩, ⟨5, "b"⟩]).length),
      (sortWithIndex [⟨5, "a"⟩, ⟨5, "b"⟩])[u] = (1, ⟨5, "b"⟩) ∧
      (sortWithIndex [⟨5, "a"⟩, ⟨5, "b"⟩])[v] = (0, ⟨5, "a"⟩) ∧ u < v := by
  have h := c10_sort_reverses_same_date_order [⟨5, "a"⟩, ⟨5, "b"⟩] 0 1
    (by decide) (by decide) (by decide) (by decide)
  obtain ⟨u, v, hu, hv, hup, hvq⟩ := h.2.1
  exact ⟨u, v, hu, hv, hup, hvq, h.1 u v hu hv hup hvq⟩

/-! ### `get_col_val` / `Account.get_balance`
(src/4_extract_monthly transactions/account.py)

`Account.get_balance(y, m, d)` calls `get_col_val` on the assembled,
date-sorted ledger with `col="Balance"`, `min_date=self.min_date` and
`max_date=self.max_date`; those are `self.data.Date.min()` and
`self.data.Date.max()`, i.e. exactly what `get_col_val` would compute by
default, so we model the min/max computation inside the function.  The
ledger is nonempty whenever an `Account` was constructed (`load_data`
loads at least one statement month). -/

structure LedgerRow where
  date : Int
  balance : Rat
deriving DecidableEq, Repr

/-- The data carried by the out-of-range warning message emitted by
`get_col_val` ("Provided date ... is out of range ..., last processed date
is ..."). -/
structure RangeWarning where
  queried : Int
  lastProcessed : Int
deriving DecidableEq, Repr

/-- `get_col_val(df, "Balance", date_obj, ...)`: `0` below range, last
balance plus a warning above range, otherwise the value at
`searchsorted(side="right") - 1`.  (On an empty frame pandas would fail;
the `[]` branch is out of the function's contract.) -/
def get_col_val (rows : List LedgerRow) (dateObj : Int) : Rat × List RangeWarning :=
  match rows with
  | [] => (0, [])
  | r0 :: rest =>
    let minDate := rest.foldl (fun acc x => min acc x.date) r0.date
    let maxDate := rest.foldl (fun acc x => max acc x.date) r0.date
    if dateObj < minDate then (0, [])
    else if maxDate < dateObj then
      (((r0 :: rest).getLast (by simp)).balance, [⟨dateObj, maxDate⟩])
    else
      let idx := (r0 :: rest).findIdx (fun r => decide (dateObj < r.date))
      (((r0 :: rest).getD (idx - 1) r0).balance, [])

/-- On a ledger sorted by date, the folded minimum is the head's date. -/
theorem foldl_min_sorted (r0 : LedgerRow) (rest : List LedgerRow)
    (hsort : (r0 :: rest).Pairwise (fun a b => a.date ≤ b.date)) :
    rest.foldl (fun acc x => min acc x.date) r0.date = r0.date := by
  have hall : ∀ x ∈ rest, r0.date ≤ x.date := (List.pairwise_cons.1 hsort).1
  clear hsort
  induction rest with
  | nil => rfl
  | cons r1 rest ih =>
    have h1 : min r0.date r1.date = r0.date := min_eq_left (hall r1 (by simp))
    simp only [List.foldl_cons, h1]
    exact ih (fun x hx => hall x (by simp [hx]))

/-- On a ledger sorted by date, the folded maximum is the last date. -/
theorem foldl_max_sorted (r0 : LedgerRow) (rest : List LedgerRow)
    (hsort : (r0 :: rest).Pairwise (fun a b => a.date ≤ b.date)) :
    rest.foldl (fun acc x => max acc x.date) r0.date =
      ((r0 :: rest).getLast (by simp)).date := by
  induction rest generalizing r0 with
  | nil => rfl
  | cons r1 rest ih =>
    have h1 : max r0.date r1.date = r1.date :=
      max_eq_right ((List.pairwise_cons.1 hsort).1 r1 (by simp))
    simp only [List.foldl_cons, h1]
    rw [List.getLast_cons_cons]
    exact ih r1 (List.pairwise_cons.1 hsort).2

/-- On a date-sorted ledger, `searchsorted(side="right") - 1` addresses the
last row whose date is at or before the queried date (provided the query is
not below the first date). -/
theorem filter_getLast_searchsorted (q : Int) (d : LedgerRow) :
    ∀ rows : List LedgerRow, rows.Pairwise (fun a b => a.date ≤ b.date) →
      ∀ hne : rows ≠ [], (rows.head hne).date ≤ q →
      (rows.filter (fun r => decide (r.date ≤ q))).getLast? =
        some (rows.getD (rows.findIdx (fun r => decide (q < r.date)) - 1) d) := by
  intro rows
  induction rows with
  | nil => intro _ hne; exact absurd rfl hne
  | cons r0 rest ih =>
    intro hsort _ hh
    simp only [List.head_cons] at hh
    have hp0 : decide (q < r0.date) = false := by
      simp only [decide_eq_false_iff_not]; omega
    have hf0 : decide (r0.date ≤ q) = true := by
      simp only [decide_eq_true_eq]; omega
    rcases rest with _ | ⟨r1, rest'⟩
    · simp [List.findIdx_cons, hp0, hf0]
    · have htail : (r1 :: rest').Pairwise (fun a b => a.date ≤ b.date) :=
        (List.pairwise_cons.1 hsort).2
      by_cases hq1 : q < r1.date
      · -- everything after r0 is strictly past the query
        have hall : ∀ x ∈ r1 :: rest', ¬(decide (x.date ≤ q) = true) := by
          intro x hx
          have hx1 : r1.date ≤ x.date := by
            rcases List.mem_cons.1 hx with h | h
            · exact h ▸ le_refl _
            · exact (List.pairwise_cons.1 htail).1 x h
          simp only [decide_eq_true_eq]; omega
        have hfrest : (r1 :: rest').filter (fun r => decide (r.date ≤ q)) = [] :=
          List.filter_eq_nil_iff.2 hall
        have hpr1 : decide (q < r1.date) = true := by
          simp only [decide_eq_true_eq]; omega
        simp [List.filter_cons, List.findIdx_cons, hp0, hf0, hpr1, hfrest]
      · have hq1' : r1.date ≤ q := by omega
        have hpr1 : decide (q < r1.date) = false := by
          simp only [decide_eq_false_iff_not]; omega
        have ih' := ih htail (by simp) (by simpa using hq1')
        have hne' : (r1 :: rest').filter (fun r => decide (r.date ≤ q)) ≠ [] := by
          have hm : r1 ∈ (r1 :: rest').filter (fun r => decide (r.date ≤ q)) :=
            List.mem_filter.2 ⟨by simp, by simpa using hq1'⟩
          exact List.ne_nil_of_mem hm
        obtain ⟨y, ys, hys⟩ := List.exists_cons_of_ne_nil hne'
        have hidx : (r1 :: rest').findIdx (fun r => decide (q < r.date)) =
            rest'.findIdx (fun r => decide (q < r.date)) + 1 := by
          rw [List.findIdx_cons, hpr1]; rfl
        calc ((r0 :: r1 :: rest').filter (fun r => decide (r.date ≤ q))).getLast?
            = (r0 :: (r1 :: rest').filter (fun r => decide (r.date ≤ q))).getLast? := by
              rw [List.filter_cons, if_pos (by simpa using hf0)]
          _ = ((r1 :: rest').filter (fun r => decide (r.date ≤ q))).getLast? := by
              rw [hys, List.getLast?_cons_cons]
          _ = some ((r1 :: rest').getD
                ((r1 :: rest').findIdx (fun r => decide (q < r.date)) - 1) d) := ih'
          _ = some ((r0 :: r1 :: rest').getD
                ((r0 :: r1 :: rest').findIdx (fun r => decide (q < r.date)) - 1) d) := by
              have hidx0 : (r0 :: r1 :: rest').findIdx (fun r => decide (q < r.date)) =
                  (r1 :: rest').findIdx (fun r => decide (q < r.date)) + 1 := by
                rw [List.findIdx_cons, hp0]; rfl
              rw [hidx0, hidx]
              simp [List.getD]

/-- On a date-sorted nonempty ledger the first date bounds the last. -/
theorem head_date_le_getLast_date (r0 : LedgerRow) (rest : List LedgerRow)
    (hsort : (r0 :: rest).Pairwise (fun a b => a.date ≤ b.date)) :
    r0.date ≤ ((r0 :: rest).getLast (by simp)).date := by
  rcases rest with _ | ⟨r1, rest'⟩
  · simp
  · rw [List.getLast_cons_cons]
    refine (List.pairwise_cons.1 hsort).1 _ ?_
    exact List.getLast_mem _

/-- C6: on the assembled (date-sorted, nonempty) ledger, `get_balance`
returns `0` with no warnings strictly before the first transaction date;
the last running balance with exactly one out-of-range warning strictly
after the last transaction date; and otherwise the balance of the last row
dated at or before the query, with no warnings. -/
theorem c6_get_balance_cases (rows : List LedgerRow) (hne : rows ≠ [])
    (hsort : rows.Pairwise (fun a b => a.date ≤ b.date)) (q : Int) :
    (q < (rows.head hne).date → get_col_val rows q = (0, [])) ∧
    ((rows.getLast hne).date < q →
      get_col_val rows q =
        ((rows.getLast hne).balance, [⟨q, (rows.getLast hne).date⟩])) ∧
    ((rows.head hne).date ≤ q → q ≤ (rows.getLast hne).date →
      (get_col_val rows q).2 = [] ∧
      (rows.filter (fun r => decide (r.date ≤ q))).getLast?.map (·.balance) =
        some (get_col_val rows q).1) := by
  rcases rows with _ | ⟨r0, rest⟩
  · exact absurd rfl hne
  have hmin := foldl_min_sorted r0 rest hsort
  have hmax := foldl_max_sorted r0 rest hsort
  have h0l := head_date_le_getLast_date r0 rest hsort
  refine ⟨?_, ?_, ?_⟩
  · intro hq
    simp only [List.head_cons] at hq
    simp only [get_col_val, hmin]
    rw [if_pos hq]
  · intro hq
    simp only [get_col_val, hmin, hmax]
    rw [if_neg (by omega), if_pos (by omega)]
  · intro hq1 hq2
    simp only [List.head_cons] at hq1
    simp only [get_col_val, hmin, hmax]
    rw [if_neg (by omega), if_neg (by omega)]
    refine ⟨rfl, ?_⟩
    rw [filter_getLast_searchsorted q r0 (r0 :: rest) hsort (by simp) (by simpa using hq1)]
    rfl

theorem c6_get_balance_cases_witness :
    get_col_val [⟨10, 5⟩, ⟨20, 7⟩] 3 = (0, []) ∧
    get_col_val [⟨10, 5⟩, ⟨20, 7⟩] 25 = (7, [⟨25, 20⟩]) ∧
    (get_col_val [⟨10, 5⟩, ⟨20, 7⟩] 15).2 = [] ∧
    (([⟨10, 5⟩, ⟨20, 7⟩] : List LedgerRow).filter
        (fun r => decide (r.date ≤ 15))).getLast?.map (·.balance) =
      some (get_col_val [⟨10, 5⟩, ⟨20, 7⟩] 15).1 := by
  have hs : ([⟨10, 5⟩, ⟨20, 7⟩] : List LedgerRow).Pairwise
      (fun a b => a.date ≤ b.date) := by decide
  have h1 := c6_get_balance_cases [⟨10, 5⟩, ⟨20, 7⟩] (by simp) hs 3
  have h2 := c6_get_balance_cases [⟨10, 5⟩, ⟨20, 7⟩] (by simp) hs 25
  have h3 := c6_get_balance_cases [⟨10, 5⟩, ⟨20, 7⟩] (by simp) hs 15
  exact ⟨h1.1 (by decide), h2.2.1 (by decide),
    (h3.2.2 (by decide) (by decide)).1, (h3.2.2 (by decide) (by decide)).2⟩

/-! ### `Account.load_data`
(src/4_extract_monthly transactions/account.py)

`load_data` resolves a monthly range, fails if any (year, month) of the
range is absent from the normalized file index, then walks the months in
order checking `|Beginning balance + Σ Amount - Ending balance| ≤ 0.01`
and `|Beginning balance - previous Ending balance| ≤ 0.01`, and finally
concatenates the transactions (stable sort by `(Date, StatementYear,
StatementMonth)`) and recomputes the running balance seeded by the first
month's beginning balance. -/

/-- A transaction row of a month's `transactions.csv` (`Amount` already
`convert_to_decimal`-normalized). -/
structure Txn where
  date : Int
  amount : Rat
deriving DecidableEq, Repr

/-- The per-month data `load_data` reads: `metadata.json` balances plus the
month's transaction rows. -/
structure MonthCell where
  beginningBalance : Rat
  endingBalance : Rat
  txns : List Txn
deriving DecidableEq, Repr

/-- A `(year, month)` key, as normalized by `load_data`. -/
abbrev Period := Nat × Nat

inductive LoadError where
  /-- `FileNotFoundError(f"Missing statements for: ...")` listing the
  missing `(year, month)` keys. -/
  | missingStatements (missing : List Period)
  /-- `ValueError(f"Final balance doesn't match for {y}/{m}; expected ...,
  got ...")`. -/
  | finalBalanceMismatch (p : Period) (expected got : Rat)
  /-- `ValueError(f"Balance continuity error: ...")`. -/
  | continuityError (p : Period) (beginning prevEnd : Rat)
deriving DecidableEq, Repr

/-- A linear month index for iterating `_month_iter`. -/
def monthIdx (p : Period) : Nat := p.1 * 12 + (p.2 - 1)

def idxToPeriod (n : Nat) : Period := (n / 12, n % 12 + 1)

/-- `_month_iter(start_dt, end_dt)`: all `(year, month)` keys from start
to end inclusive. -/
def monthIter (s e : Period) : List Period :=
  (List.range (monthIdx e + 1 - monthIdx s)).map fun k => idxToPeriod (monthIdx s + k)

/-- The loop body checks of `load_data`: month-total check then continuity
check, threaded with the previous month's ending balance, returning the
final ending balance (`prev_end`). -/
def checkMonths (prevEnd : Option Rat) :
    List (Period × MonthCell) → Except LoadError (Option Rat)
  | [] => .ok prevEnd
  | (p, c) :: rest =>
    let monthSum := (c.txns.map (·.amount)).sum
    if 1/100 < |c.beginningBalance + monthSum - c.endingBalance| then
      .error (.finalBalanceMismatch p c.endingBalance (c.beginningBalance + monthSum))
    else
      match prevEnd with
      | some pe =>
        if 1/100 < |c.beginningBalance - pe| then
          .error (.continuityError p c.beginningBalance pe)
        else checkMonths (some c.endingBalance) rest
      | none => checkMonths (some c.endingBalance) rest

/-- A row of the assembled ledger: a transaction tagged with its statement
period and the recomputed running balance. -/
structure AssembledRow where
  date : Int
  amount : Rat
  stYear : Nat
  stMonth : Nat
  balance : Rat
deriving DecidableEq, Repr

/-- Sort key of the final `sort_values(["Date", "StatementYear",
"StatementMonth"], kind="stable")`. -/
def assembledLE (a b : Int × Period × Rat) : Prop :=
  a.1 < b.1 ∨ (a.1 = b.1 ∧ (a.2.1.1 < b.2.1.1 ∨ (a.2.1.1 = b.2.1.1 ∧ a.2.1.2 ≤ b.2.1.2)))

instance : DecidableRel assembledLE := fun a b => by
  unfold assembledLE; infer_instance

/-- Concatenate the months' transactions, sort, and recompute the running
balance in exact arithmetic seeded by the first month's beginning
balance. -/
def buildLedger (cells : List (Period × MonthCell)) : List AssembledRow :=
  let tagged := cells.flatMap fun pc => pc.2.txns.map fun t => (t.date, pc.1, t.amount)
  let sorted := List.insertionSort assembledLE tagged
  let firstBeginning := ((cells.head?).map fun pc => pc.2.beginningBalance).getD 0
  (sorted.foldl
    (fun (acc : Rat × List AssembledRow) row =>
      let total := acc.1 + row.2.2
      (total, acc.2 ++ [⟨row.1, row.2.2, row.2.1.1, row.2.1.2, total⟩]))
    (firstBeginning, [])).2

/-- The `(period, cell)` sequence `load_data` walks after the gap check. -/
def loadCells (s e : Period) (index : List (Period × MonthCell)) :
    List (Period × MonthCell) :=
  (monthIter s e).filterMap fun p => (index.lookup p).map fun c => (p, c)

/-- `Account.load_data`: index lookup, gap check, per-month validation,
assembly. -/
def load_data (s e : Period) (index : List (Period × MonthCell)) :
    Except LoadError (List AssembledRow) :=
  let periods := monthIter s e
  let missing := periods.filter fun p => (index.lookup p).isNone
  if missing ≠ [] then .error (.missingStatements missing)
  else
    match checkMonths none (loadCells s e index) with
    | .error err => .error err
    | .ok _ => .ok (buildLedger (loadCells s e index))

/-- The continuity obligations of the `load_data` loop as a predicate:
the first month must match `prevEnd` (when given) and every later month
must match its predecessor's ending balance. -/
def contAll (prevEnd : Option Rat) : List (Period × MonthCell) → Prop
  | [] => True
  | (_, c) :: rest =>
    (∀ pe, prevEnd = some pe → |c.beginningBalance - pe| ≤ 1/100) ∧
    contAll (some c.endingBalance) rest

/-- The month-walking loop succeeds exactly when every month passes the
total check and every month passes the continuity check. -/
theorem checkMonths_ok_iff : ∀ (cells : List (Period × MonthCell)) (prevEnd : Option Rat),
    (∃ r, checkMonths prevEnd cells = .ok r) ↔
      ((∀ pc ∈ cells,
          |pc.2.beginningBalance + (pc.2.txns.map (·.amount)).sum - pc.2.endingBalance|
            ≤ 1/100) ∧
        contAll prevEnd cells) := by
  intro cells
  induction cells with
  | nil => intro prevEnd; simp [checkMonths, contAll]
  | cons pc rest ih =>
    intro prevEnd
    obtain ⟨p, c⟩ := pc
    by_cases hm : 1/100 < |c.beginningBalance + (c.txns.map (·.amount)).sum - c.endingBalance|
    · simp only [checkMonths, if_pos hm]
      constructor
      · rintro ⟨r, hr⟩; exact absurd hr (by simp)
      · rintro ⟨hall, -⟩
        exact absurd (hall (p, c) (by simp)) (by simpa using hm)
    · push_neg at hm
      simp only [checkMonths, if_neg (not_lt.2 hm)]
      match prevEnd with
      | none =>
        rw [ih (some c.endingBalance)]
        simp only [contAll, List.mem_cons]
        constructor
        · rintro ⟨hall, hcont⟩
          exact ⟨fun pc hpc => hpc.elim (fun h => h ▸ hm) (hall pc), by simp, hcont⟩
        · rintro ⟨hall, -, hcont⟩
          exact ⟨fun pc hpc => hall pc (Or.inr hpc), hcont⟩
      | some pe =>
        by_cases hc : 1/100 < |c.beginningBalance - pe|
        · simp only [if_pos hc]
          constructor
          · rintro ⟨r, hr⟩; exact absurd hr (by simp)
          · rintro ⟨-, hcont⟩
            exact absurd (hcont.1 pe rfl) (by simpa using hc)
        · push_neg at hc
          simp only [if_neg (not_lt.2 hc)]
          rw [ih (some c.endingBalance)]
          simp only [contAll, List.mem_cons]
          constructor
          · rintro ⟨hall, hcont⟩
            exact ⟨fun pc hpc => hpc.elim (fun h => h ▸ hm) (hall pc),
              fun pe' hpe' => by cases hpe'; exact hc, hcont⟩
          · rintro ⟨hall, -, hcont⟩
            exact ⟨fun pc hpc => hall pc (Or.inr hpc), hcont⟩

/-- `contAll` with no inherited balance is exactly the consecutive-pair
continuity condition. -/
theorem contAll_iff : ∀ (cells : List (Period × MonthCell)) (prevEnd : Option Rat),
    contAll prevEnd cells ↔
      ((∀ pe, prevEnd = some pe → ∀ pc ∈ cells.head?,
          |(pc : Period × MonthCell).2.beginningBalance - pe| ≤ 1/100) ∧
        List.Chain'
          (fun a b => |b.2.beginningBalance - a.2.endingBalance| ≤ 1/100) cells) := by
  intro cells
  induction cells with
  | nil => intro prevEnd; simp [contAll]
  | cons pc rest ih =>
    intro prevEnd
    obtain ⟨p, c⟩ := pc
    rw [contAll, ih (some c.endingBalance), List.chain'_cons']
    simp only [List.head?_cons, Option.mem_def, Option.some.injEq]
    constructor
    · rintro ⟨h1, h2, h3⟩
      exact ⟨fun pe hpe pc hpc => by cases hpc; exact h1 pe hpe,
        fun b hb => h2 c.endingBalance rfl b hb, h3⟩
    · rintro ⟨h1, h2, h3⟩
      exact ⟨fun pe hpe => h1 pe hpe (p, c) rfl,
        fun pe hpe b hb => by cases hpe; exact h2 b hb, h3⟩

/-- C1: with every month of the range present, `load_data` produces a
ledger exactly when every month passes
`|Beginning balance + Σ Amount - Ending balance| ≤ 0.01` and every
consecutive pair passes
`|Beginning balance - previous Ending balance| ≤ 0.01`; a failure of
either check for any month yields an error and no ledger. -/
theorem c1_load_data_validation (s e : Period) (index : List (Period × MonthCell))
    (hnomiss : ∀ p ∈ monthIter s e, (index.lookup p).isSome) :
    (∃ L, load_data s e index = .ok L) ↔
      ((∀ pc ∈ loadCells s e index,
          |pc.2.beginningBalance + (pc.2.txns.map (·.amount)).sum - pc.2.endingBalance|
            ≤ 1/100) ∧
        List.Chain'
          (fun a b => |b.2.beginningBalance - a.2.endingBalance| ≤ 1/100)
          (loadCells s e index)) := by
  have hmiss : (monthIter s e).filter (fun p => (index.lookup p).isNone) = [] :=
    List.filter_eq_nil_iff.2 fun p hp => by
      have h := hnomiss p hp
      cases hl : index.lookup p with
      | none => rw [hl] at h; simp at h
      | some c => simp [hl]
  have hld : load_data s e index =
      (match checkMonths none (loadCells s e index) with
        | .error err => .error err
        | .ok _ => .ok (buildLedger (loadCells s e index))) := by
    simp only [load_data, hmiss]
    rw [if_neg (by simp)]
  rw [hld]
  rcases hcm : checkMonths none (loadCells s e index) with err | r
  · simp only
    constructor
    · rintro ⟨L, hL⟩; exact absurd hL (by simp)
    · intro hrhs
      have hok : ∃ r, checkMonths none (loadCells s e index) = .ok r :=
        (checkMonths_ok_iff _ none).2
          ⟨hrhs.1, (contAll_iff _ none).2 ⟨by simp, hrhs.2⟩⟩
      rw [hcm] at hok
      obtain ⟨r, hr⟩ := hok
      exact absurd hr (by simp)
  · simp only
    constructor
    · intro _
      have hconds := (checkMonths_ok_iff _ none).1 ⟨r, hcm⟩
      exact ⟨hconds.1, ((contAll_iff _ none).1 hconds.2).2⟩
    · intro _
      exact ⟨_, rfl⟩

theorem c1_load_data_validation_witness :
    ∃ L, load_data (2024, 1) (2024, 2)
      [((2024, 1), ⟨0, 5, [⟨20240115, 5⟩]⟩), ((2024, 2), ⟨5, 5, []⟩)] = .ok L := by
  have hcells : loadCells (2024, 1) (2024, 2)
      [((2024, 1), ⟨0, 5, [⟨20240115, 5⟩]⟩), ((2024, 2), ⟨5, 5, []⟩)] =
      [((2024, 1), ⟨0, 5, [⟨20240115, 5⟩]⟩), ((2024, 2), ⟨5, 5, []⟩)] := by rfl
  refine (c1_load_data_validation (2024, 1) (2024, 2) _ (by decide)).mpr ?_
  rw [hcells]
  constructor
  · intro pc hpc
    rcases List.mem_cons.1 hpc with h | h
    · subst h; norm_num
    · rcases List.mem_cons.1 h with h' | h'
      · subst h'; norm_num
      · simp at h'
  · refine List.chain'_cons.2 ⟨?_, List.chain'_singleton _⟩
    norm_num

/-- C2: if any `(year, month)` of the resolved range is absent from the
file index, `load_data` fails with an error naming exactly the missing
periods (those of the range absent from the index, in range order), and
never returns a partial ledger. -/
theorem c2_missing_periods_fatal (s e : Period) (index : List (Period × MonthCell))
    (hmiss : (monthIter s e).filter (fun p => (index.lookup p).isNone) ≠ []) :
    load_data s e index =
      .error (.missingStatements
        ((monthIter s e).filter fun p => (index.lookup p).isNone)) := by
  simp only [load_data]
  rw [if_pos hmiss]

theorem c2_missing_periods_fatal_witness :
    load_data (2024, 1) (2024, 4)
      [((2024, 1), ⟨0, 0, []⟩), ((2024, 2), ⟨0, 0, []⟩), ((2024, 4), ⟨0, 0, []⟩)] =
      .error (.missingStatements [(2024, 3)]) := by
  have h := c2_missing_periods_fatal (2024, 1) (2024, 4)
    [((2024, 1), ⟨0, 0, []⟩), ((2024, 2), ⟨0, 0, []⟩), ((2024, 4), ⟨0, 0, []⟩)]
    (by decide)
  exact h.trans (by rfl)

/-! ### Apple metadata consistency check (src/3_extract_data/apple.py,
`apple_data_process`)

After the summary totals have been folded into the metadata,
`apple_data_process` computes
`calculated_total = previous_total_balance.Amount +
total_charges_credits_returns - total_payments` and raises
`ValueError(f"... Calculated total: ${calculated_total}, Extracted total:
${extracted_total}")` when it differs (exact `Decimal` comparison) from
`total_balance.Amount`. -/

/-- A balance entry of the Apple metadata: an amount and its "as of"
date. -/
structure AppleBalanceEntry where
  amount : Rat
  date : Int
deriving DecidableEq, Repr

/-- The metadata fields entering the consistency check of
`apple_data_process`. -/
structure AppleProcMetadata where
  previous_total_balance : AppleBalanceEntry
  total_charges_credits_returns : Rat
  total_payments : Rat
  total_balance : AppleBalanceEntry
deriving DecidableEq, Repr

inductive AppleMetadataError where
  /-- `"Extracted metadata is not consistent ... Calculated total: $...,
  Extracted total: $..."`, carrying both values. -/
  | inconsistent (calculated extracted : Rat)
deriving DecidableEq, Repr

/-- The `# Check metadata` block of `apple_data_process`. -/
def apple_metadata_check (m : AppleProcMetadata) : Except AppleMetadataError Unit :=
  let calculated_total := m.previous_total_balance.amount +
    m.total_charges_credits_returns - m.total_payments
  let extracted_total := m.total_balance.amount
  if calculated_total ≠ extracted_total then
    .error (.inconsistent calculated_total extracted_total)
  else .ok ()

/-- C3: the metadata check of `apple_data_process` raises exactly when
`previous_total_balance + total_charges_credits_returns - total_payments`
is not exactly equal to the extracted `total_balance`, and the raised
error carries both the calculated and the extracted totals. -/
theorem c3_apple_metadata_check (m : AppleProcMetadata) :
    (apple_metadata_check m =
        .error (.inconsistent
          (m.previous_total_balance.amount + m.total_charges_credits_returns -
            m.total_payments)
          m.total_balance.amount) ↔
      m.previous_total_balance.amount + m.total_charges_credits_returns -
        m.total_payments ≠ m.total_balance.amount) ∧
    (apple_metadata_check m = .ok () ↔
      m.previous_total_balance.amount + m.total_charges_credits_returns -
        m.total_payments = m.total_balance.amount) := by
  by_cases h : m.previous_total_balance.amount + m.total_charges_credits_returns -
      m.total_payments = m.total_balance.amount
  · simp [apple_metadata_check, h]
  · simp [apple_metadata_check, h]

theorem c3_apple_metadata_check_witness :
    apple_metadata_check ⟨⟨5, 0⟩, 3, 2, ⟨7, 0⟩⟩ = .error (.inconsistent 6 7) ∧
    apple_metadata_check ⟨⟨5, 0⟩, 3, 2, ⟨6, 0⟩⟩ = .ok () := by
  constructor
  · have h := (c3_apple_metadata_check ⟨⟨5, 0⟩, 3, 2, ⟨7, 0⟩⟩).1.mpr (by norm_num)
    exact h.trans (by norm_num)
  · exact (c3_apple_metadata_check ⟨⟨5, 0⟩, 3, 2, ⟨6, 0⟩⟩).2.mpr (by norm_num)

/-! ### CSV cross-fillers (src/3_extract_data/chase_csv.py and
discover_csv.py)

`extract_chase_data_from_csv_using_metadata` /
`extract_discover_data_from_csv_using_metadata`: if the bulk export's date
coverage does not contain the `[beginning_date, ending_date]` window, set
`df = None` and `success = False` (the Chase variant additionally prints a
note; neither raises).  Otherwise filter to the window; a nonempty result
gets a cumulative `Balance` column and `success = True`; an empty one is
returned with `success = False`. -/

/-- A row of the bulk CSV export, after `process_financial_df`. -/
structure CsvRow where
  date : Int
  amount : Rat
deriving DecidableEq, Repr

/-- The period metadata consumed by the cross-fillers. -/
structure CsvMetadata where
  beginning_date : Int
  ending_date : Int
  beginningBalance : Rat
deriving DecidableEq, Repr

/-- `df["Balance"] = df["Amount"].cumsum() + metadata["Beginning balance"]`. -/
def withCumulativeBalance (rows : List CsvRow) (beg : Rat) : List (CsvRow × Rat) :=
  (rows.foldl
    (fun (acc : Rat × List (CsvRow × Rat)) r =>
      let total := acc.1 + r.amount
      (total, acc.2 ++ [(r, total)]))
    (beg, [])).2

def extract_chase_data_from_csv_using_metadata (df : List CsvRow)
    (metadata : CsvMetadata) : Option (List (CsvRow × Rat)) × Bool :=
  match (df.map (·.date)).min?, (df.map (·.date)).max? with
  | some minDate, some maxDate =>
    if metadata.beginning_date < minDate ∨ maxDate < metadata.ending_date then
      (none, false)
    else
      let f := df.filter fun r =>
        metadata.beginning_date ≤ r.date ∧ r.date ≤ metadata.ending_date
      if 0 < f.length then (some (withCumulativeBalance f metadata.beginningBalance), true)
      else (some [], false)
  | _, _ =>
    -- empty export: pandas min/max are NaN, every comparison is False,
    -- the filter of the empty frame is empty, so success is False
    (some [], false)

def extract_discover_data_from_csv_using_metadata (df : List CsvRow)
    (metadata : CsvMetadata) : Option (List (CsvRow × Rat)) × Bool :=
  match (df.map (·.date)).min?, (df.map (·.date)).max? with
  | some minDate, some maxDate =>
    if metadata.beginning_date < minDate ∨ maxDate < metadata.ending_date then
      (none, false)
    else
      let f := df.filter fun r =>
        metadata.beginning_date ≤ r.date ∧ r.date ≤ metadata.ending_date
      if 0 < f.length then (some (withCumulativeBalance f metadata.beginningBalance), true)
      else (some [], false)
  | _, _ => (some [], false)

/-- C5: when the bulk export's coverage does not contain the requested
window (minimum date after the window's beginning, or maximum date before
its end), both cross-fillers return `success = False` with no rows
(`df = None`), and neither can raise (both are total functions of their
inputs). -/
theorem c5_coverage_gap_returns_failure (df : List CsvRow) (metadata : CsvMetadata)
    (minDate maxDate : Int)
    (hmin : (df.map (·.date)).min? = some minDate)
    (hmax : (df.map (·.date)).max? = some maxDate)
    (hgap : metadata.beginning_date < minDate ∨ maxDate < metadata.ending_date) :
    extract_chase_data_from_csv_using_metadata df metadata = (none, false) ∧
    extract_discover_data_from_csv_using_metadata df metadata = (none, false) := by
  constructor
  · rw [extract_chase_data_from_csv_using_metadata]
    rw [hmin, hmax]
    simp only [if_pos hgap]
  · rw [extract_discover_data_from_csv_using_metadata]
    rw [hmin, hmax]
    simp only [if_pos hgap]

theorem c5_coverage_gap_returns_failure_witness :
    extract_chase_data_from_csv_using_metadata
      [⟨20241210, 5⟩, ⟨20241215, 3⟩] ⟨20250101, 20250131, 0⟩ = (none, false) ∧
    extract_discover_data_from_csv_using_metadata
      [⟨20241210, 5⟩, ⟨20241215, 3⟩] ⟨20250101, 20250131, 0⟩ = (none, false) :=
  c5_coverage_gap_returns_failure [⟨20241210, 5⟩, ⟨20241215, 3⟩]
    ⟨20250101, 20250131, 0⟩ 20241210 20241215 (by decide) (by decide)
    (by right; decide)

/-! ### Apple `check_totals` (src/3_extract_data/apple.py)

`check_totals(df, file)` validates the extracted Apple table: exactly 3
rows with NaN `Date`; for each of the three summary descriptions exactly
one row whose `Description` contains it, that row undated, its total
parseable; then, over the dated rows, the extracted charges total must
equal the transaction-row `Amount` sum, the negated payments total the
payment-row `Amount` sum, and the daily-cash total the transaction-row
`Cashback` sum.  Any violation raises. -/

/-- Substring containment, modelling both Python's `in` and pandas'
`Series.str.contains` on the plain (regex-free) needles used here. -/
def containsSub (needle hay : String) : Bool :=
  decide (needle.toList <:+: hay.toList)

/-- A monetary text cell: either it parses as a decimal once `$` and `,`
are stripped (`val q`), or it does not (`na`, e.g. the literal `"N/A"`).
`str2dec` in the source maps the latter to `Decimal("0")`. -/
inductive MoneyText where
  | val (q : Rat)
  | na
deriving DecidableEq, Repr

/-- `str2dec`: parse a money text, defaulting non-numeric text to 0. -/
def str2dec : MoneyText → Rat
  | .val q => q
  | .na => 0

/-- A row of the extracted Apple statement table, after
`df.Date.replace("N/A", np.nan)` (`date = none` models NaN). -/
structure AppleRow where
  date : Option String
  description : String
  cashback : MoneyText
  amount : MoneyText
  tableType : String
deriving DecidableEq, Repr

/-- The `special_rows` list of `check_totals`, in loop order. -/
def appleSpecialRows : List String :=
  ["Total Daily Cash", "Total charges, credits and returns", "Total payments"]

inductive AppleCheckError where
  /-- "has a number of nan values in 'Date' column different than 3" -/
  | nanCountNotThree
  /-- "does not contain row for '<desc>'" (zero or several matches) -/
  | missingSummaryRow (desc : String)
  /-- "Data for row '<desc>' ... is not nan" -/
  | summaryRowDated (desc : String)
  /-- "Unable to convert '<total>' to decimal in row '<desc>'" -/
  | unparsableTotal (desc : String)
  /-- "Total charges, credits, and returns do not match transaction amounts." -/
  | chargesMismatch
  /-- "Total payments do not match payment amounts." -/
  | paymentsMismatch
  /-- "Total daily cash do not match transactions cashback." -/
  | dailyCashMismatch
deriving DecidableEq, Repr

/-- The per-description body of the `for desc in special_rows` loop of
`check_totals`: locate the unique matching row, require its date NaN, and
parse its total (from `Cashback` for "Total Daily Cash", else `Amount`). -/
def getTotal (df : List AppleRow) (desc : String) : Except AppleCheckError Rat :=
  match df.filter fun r => containsSub desc r.description with
  | [r] =>
    if r.date.isSome then .error (.summaryRowDated desc)
    else
      match (if desc = "Total Daily Cash" then r.cashback else r.amount) with
      | .val q => .ok q
      | .na => .error (.unparsableTotal desc)
  | _ => .error (.missingSummaryRow desc)

/-- `check_totals`, returning the extracted totals
`(Total Daily Cash, Total charges credits and returns, Total payments)`
on success. -/
def check_totals (df : List AppleRow) : Except AppleCheckError (Rat × Rat × Rat) :=
  if df.countP (fun r => r.date.isNone) ≠ 3 then .error .nanCountNotThree
  else
    match getTotal df "Total Daily Cash" with
    | .error e => .error e
    | .ok tdc =>
      match getTotal df "Total charges, credits and returns" with
      | .error e => .error e
      | .ok tccr =>
        match getTotal df "Total payments" with
        | .error e => .error e
        | .ok tp =>
          let dated := df.filter fun r => r.date.isSome
          let payments_df := dated.filter fun r => r.tableType = "Payments"
          let transactions_df := dated.filter fun r => r.tableType = "Transactions"
          if tccr ≠ (transactions_df.map fun r => str2dec r.amount).sum then
            .error .chargesMismatch
          else if -tp ≠ (payments_df.map fun r => str2dec r.amount).sum then
            .error .paymentsMismatch
          else if tdc ≠ (transactions_df.map fun r => str2dec r.cashback).sum then
            .error .dailyCashMismatch
          else .ok (tdc, tccr, tp)

/-- A successful `getTotal` means the description matched exactly one row
and that row is undated. -/
theorem getTotal_ok_shape (df : List AppleRow) (desc : String) (q : Rat)
    (h : getTotal df desc = .ok q) :
    (df.filter fun r => containsSub desc r.description).length = 1 ∧
    ∀ r ∈ df.filter fun r => containsSub desc r.description, r.date = none := by
  unfold getTotal at h
  cases hf : df.filter fun r => containsSub desc r.description with
  | nil => rw [hf] at h; simp at h
  | cons r rest =>
    cases rest with
    | nil =>
      rw [hf] at h
      simp only at h
      cases hd : r.date with
      | some d => rw [hd] at h; simp at h
      | none =>
        refine ⟨by simp, ?_⟩
        intro r' hr'
        rw [List.mem_singleton] at hr'
        rw [hr']; exact hd
    | cons r2 rest2 => rw [hf] at h; simp at h

/-- C4: `check_totals` succeeds only if the table has exactly three
undated summary rows — exactly one matching row per summary description,
each undated — and the extracted totals reconcile: the charges total
equals the dated transaction rows' `Amount` sum, the negated payments
total equals the dated payment rows' `Amount` sum, and the daily-cash
total equals the dated transaction rows' `Cashback` sum. -/
theorem c4_check_totals_conditions (df : List AppleRow) (tdc tccr tp : Rat)
    (h : check_totals df = .ok (tdc, tccr, tp)) :
    df.countP (fun r => r.date.isNone) = 3 ∧
    (∀ desc ∈ appleSpecialRows,
      (df.filter fun r => containsSub desc r.description).length = 1 ∧
      ∀ r ∈ df.filter fun r => containsSub desc r.description, r.date = none) ∧
    getTotal df "Total Daily Cash" = .ok tdc ∧
    getTotal df "Total charges, credits and returns" = .ok tccr ∧
    getTotal df "Total payments" = .ok tp ∧
    tccr = (((df.filter fun r => r.date.isSome).filter
        fun r => r.tableType = "Transactions").map fun r => str2dec r.amount).sum ∧
    -tp = (((df.filter fun r => r.date.isSome).filter
        fun r => r.tableType = "Payments").map fun r => str2dec r.amount).sum ∧
    tdc = (((df.filter fun r => r.date.isSome).filter
        fun r => r.tableType = "Transactions").map fun r => str2dec r.cashback).sum := by
  unfold check_totals at h
  by_cases hc : df.countP (fun r => r.date.isNone) = 3
  · rw [if_neg (by simpa using hc)] at h
    cases h1 : getTotal df "Total Daily Cash" with
    | error e => rw [h1] at h; simp at h
    | ok v1 =>
      rw [h1] at h
      cases h2 : getTotal df "Total charges, credits and returns" with
      | error e => rw [h2] at h; simp at h
      | ok v2 =>
        rw [h2] at h
        cases h3 : getTotal df "Total payments" with
        | error e => rw [h3] at h; simp at h
        | ok v3 =>
          rw [h3] at h
          simp only at h
          by_cases hch : v2 = (((df.filter fun r => r.date.isSome).filter
              fun r => r.tableType = "Transactions").map fun r => str2dec r.amount).sum
          · rw [if_neg (by simpa using hch)] at h
            by_cases hpa : -v3 = (((df.filter fun r => r.date.isSome).filter
                fun r => r.tableType = "Payments").map fun r => str2dec r.amount).sum
            · rw [if_neg (by simpa using hpa)] at h
              by_cases hdc : v1 = (((df.filter fun r => r.date.isSome).filter
                  fun r => r.tableType = "Transactions").map fun r => str2dec r.cashback).sum
              · rw [if_neg (by simpa using hdc)] at h
                simp only [Except.ok.injEq, Prod.mk.injEq] at h
                obtain ⟨e1, e2, e3⟩ := h
                subst e1; subst e2; subst e3
                refine ⟨hc, ?_, rfl, rfl, rfl, hch, hpa, hdc⟩
                intro desc hdesc
                have hdesc' : desc = "Total Daily Cash" ∨
                    desc = "Total charges, credits and returns" ∨
                    desc = "Total payments" := by
                  simpa [appleSpecialRows] using hdesc
                rcases hdesc' with h' | h' | h'
                · subst h'; exact getTotal_ok_shape df _ _ h1
                · subst h'; exact getTotal_ok_shape df _ _ h2
                · subst h'; exact getTotal_ok_shape df _ _ h3
              · rw [if_pos (by simpa using hdc)] at h; simp at h
            · rw [if_pos (by simpa using hpa)] at h; simp at h
          · rw [if_pos (by simpa using hch)] at h; simp at h
  · rw [if_pos (by simpa using hc)] at h; simp at h

/-- A sample extracted Apple table that reconciles: one payment of
-1200.00 against a payments total of 1200.00, one purchase of 50.00 with
1.00 daily cash against matching charges and daily-cash totals. -/
def appleSampleTable : List AppleRow :=
  [⟨some "01/05/2024", "ACH Deposit Internet", .na, .val (-1200), "Payments"⟩,
   ⟨none, "Total payments for this period", .na, .val 1200, "Payments"⟩,
   ⟨some "01/10/2024", "Merchant Purchase", .val 1, .val 50, "Transactions"⟩,
   ⟨none, "Total charges, credits and returns", .na, .val 50, "Transactions"⟩,
   ⟨none, "Total Daily Cash this month", .val 1, .na, "Transactions"⟩]

instance {ε α : Type} [DecidableEq ε] [DecidableEq α] : DecidableEq (Except ε α) :=
  fun a b =>
    match a, b with
    | .ok x, .ok y =>
      if h : x = y then isTrue (by rw [h])
      else isFalse fun hc => h (by cases hc; rfl)
    | .error x, .error y =>
      if h : x = y then isTrue (by rw [h])
      else isFalse fun hc => h (by cases hc; rfl)
    | .ok _, .error _ => isFalse fun hc => Except.noConfusion hc
    | .error _, .ok _ => isFalse fun hc => Except.noConfusion hc

theorem c4_check_totals_conditions_witness :
    check_totals appleSampleTable = .ok (1, 50, 1200) ∧
    appleSampleTable.countP (fun r => r.date.isNone) = 3 := by
  have hg1 : getTotal appleSampleTable "Total Daily Cash" = .ok 1 := by decide
  have hg2 : getTotal appleSampleTable "Total charges, credits and returns" = .ok 50 := by
    decide
  have hg3 : getTotal appleSampleTable "Total payments" = .ok 1200 := by decide
  have hd : appleSampleTable.filter (fun r => r.date.isSome) =
      [⟨some "01/05/2024", "ACH Deposit Internet", .na, .val (-1200), "Payments"⟩,
       ⟨some "01/10/2024", "Merchant Purchase", .val 1, .val 50, "Transactions"⟩] := by
    decide
  have hck : check_totals appleSampleTable = .ok (1, 50, 1200) := by
    unfold check_totals
    rw [if_neg (by decide), hg1, hg2, hg3]
    simp only [hd]
    simp +decide [str2dec, List.sum_cons, List.sum_nil]
  exact ⟨hck, (c4_check_totals_conditions appleSampleTable 1 50 1200 hck).1⟩

/-! ### Batch drivers' already-processed file selection
(src/3_extract_data/apple.py `process_apple`, src/3_extract_data/sofi.py
`process_sofi`)

Both drivers compute
`unprocessed_files = {str(file) for file in files} -
set(statements_db["raw_documents_path"])`.
`process_apple` then iterates over that difference.  `process_sofi`
computes the same difference but immediately rebinds
`unprocessed_files = files` (its conversion of the difference back to
paths is commented out), so it iterates over every found file. -/

/-- The files `process_apple` iterates over: the found files minus the
paths already recorded in the statements DB. -/
def appleFilesToProcess (files dbPaths : List String) : List String :=
  files.filter fun f => !(dbPaths.contains f)

/-- The files `process_sofi` iterates over: the set difference is
computed, but the subsequent `unprocessed_files = files` rebinding
discards it and every found file is processed. -/
def sofiFilesToProcess (files dbPaths : List String) : List String :=
  let _unprocessed_files := files.filter fun f => !(dbPaths.contains f)
  files

/-- C7 (code bug): on a file set that is fully recorded in the statements
DB, the Apple driver selects nothing, but the SoFi driver still selects
every file — an already-processed statement is re-processed and its
outputs rewritten, so re-running the batch is not idempotent for SoFi. -/
theorem c7_sofi_reprocesses_already_processed :
    appleFilesToProcess ["/sofi/Statements/2024/01/stmt.pdf"]
      ["/sofi/Statements/2024/01/stmt.pdf"] = [] ∧
    sofiFilesToProcess ["/sofi/Statements/2024/01/stmt.pdf"]
      ["/sofi/Statements/2024/01/stmt.pdf"] =
      ["/sofi/Statements/2024/01/stmt.pdf"] ∧
    "/sofi/Statements/2024/01/stmt.pdf" ∈
      ["/sofi/Statements/2024/01/stmt.pdf"] := by
  refine ⟨by decide, rfl, by decide⟩

/-! ### Metadata scanners (src/3_extract_data/chase_metadata.py
`extract_chase_sapphire_metadata`, src/3_extract_data/apple.py
`extract_metadata`)

The Chase scanners receive lines already lower-cased and space-stripped by
`process_checking_statement`.  For every dollar field the guard
`field["field_name"] not in metadata` makes the first matching line win.
The Apple scanner, by contrast, assigns `metadata[...] = {...}`
unconditionally, so a later matching line overwrites an earlier one.

The dollar-amount and date extraction primitives
(`extract_dollar_amount`, `extract_beginning_end_dates_sapphire`,
`extract_amount`, `extract_date` — regex plus decimal/date parsing) are
abstracted as function parameters; the claims under study concern only the
scanners' accumulation discipline. -/

/-- A value stored in the metadata dict. -/
inductive MetaVal where
  | amt (q : Rat)
  | dt (d : Int)
deriving DecidableEq, Repr

/-- The accumulating metadata record: a Python dict in insertion order. -/
abbrev Metadata := List (String × MetaVal)

/-- Python dict assignment `metadata[k] = v`: overwrite in place when the
key exists, append otherwise. -/
def dictInsert (m : Metadata) (k : String) (v : MetaVal) : Metadata :=
  match m with
  | [] => [(k, v)]
  | (k0, v0) :: rest => if k0 = k then (k, v) :: rest else (k0, v0) :: dictInsert rest k v

/-- `line.startswith(tok)`. -/
def startsWithTok (tok line : String) : Bool :=
  decide (tok.toList <+: line.toList)

/-- `line.replace("`", "")` (the backtick has code point 96). -/
def removeTicks (s : String) : String :=
  ⟨s.toList.filter fun c => c.toNat ≠ 96⟩

/-- The `fields` table of `extract_chase_sapphire_metadata`:
`(fieldline_starts, field_name)` in source order. -/
def sapphireFields : List (List String × String) :=
  [(["previousbalance"], "Beginning balance"),
   (["newbalance$"], "Ending balance"),
   (["newbalance-$"], "Ending balance"),
   (["payment,credits"], "payments_and_credits"),
   (["purchases+"], "purchases"),
   (["purchases$"], "purchases"),
   (["balancetransfers"], "balance_transfers"),
   (["cashadvances"], "cash_advances"),
   (["feescharged"], "fees_charged"),
   (["interestcharged"], "interest_charged")]

/-- The `for field in fields` inner loop of the sapphire scanner: a field
is only assigned when some start token matches and the field is not yet in
the metadata (`field["field_name"] not in metadata`). -/
def scanFields (extractAmt : String → Except String Rat) (line : String) :
    Metadata → List (List String × String) → Except String Metadata
  | m, [] => .ok m
  | m, (starts, name) :: rest =>
    if starts.any (fun st => startsWithTok st line) && (m.lookup name).isNone then
      match extractAmt line with
      | .error e => .error e
      | .ok q => scanFields extractAmt line (dictInsert m name (.amt q)) rest
    else scanFields extractAmt line m rest

/-- One iteration of `for line in lines` in
`extract_chase_sapphire_metadata`: strip backticks, possibly take the
opening/closing-date branch, then run the fields loop. -/
def sapphireLineStep (extractAmt : String → Except String Rat)
    (extractDates : String → Except String (Int × Int)) (m : Metadata)
    (line : String) : Except String Metadata :=
  let line := removeTicks line
  let afterDates : Except String Metadata :=
    if startsWithTok "opening/closingdate" line &&
        ((m.lookup "beginning_date").isNone || (m.lookup "ending_date").isNone) then
      match extractDates line with
      | .error e => .error e
      | .ok (b, e) =>
        .ok (dictInsert (dictInsert m "beginning_date" (.dt b)) "ending_date" (.dt e))
    else .ok m
  match afterDates with
  | .error e => .error e
  | .ok m1 => scanFields extractAmt line m1 sapphireFields

/-- The scan loop of `extract_chase_sapphire_metadata`, from the empty
dict. -/
def sapphireScan (extractAmt : String → Except String Rat)
    (extractDates : String → Except String (Int × Int)) (lines : List String) :
    Except String Metadata :=
  lines.foldlM (sapphireLineStep extractAmt extractDates) []

/-- `dictInsert` changes exactly its own key. -/
theorem lookup_dictInsert (k : String) (v : MetaVal) (k' : String) :
    ∀ m : Metadata,
      (dictInsert m k v).lookup k' = if k' = k then some v else m.lookup k' := by
  intro m
  induction m with
  | nil =>
    by_cases h : k' = k
    · simp [dictInsert, List.lookup, h]
    · have hbe : (k' == k) = false := by simpa using h
      simp [dictInsert, List.lookup, hbe, h]
  | cons kv rest ih =>
    obtain ⟨k0, v0⟩ := kv
    by_cases h0 : k0 = k
    · subst h0
      simp only [dictInsert, if_pos rfl]
      by_cases hk' : k' = k0
      · have hbe : (k' == k0) = true := by simpa using hk'
        simp [List.lookup, hbe, hk']
      · have hbe : (k' == k0) = false := by simpa using hk'
        simp [List.lookup, hbe, hk']
    · simp only [dictInsert, if_neg h0]
      by_cases hk' : k' = k0
      · have hbe : (k' == k0) = true := by simpa using hk'
        have hne : ¬(k' = k) := fun h => h0 (hk'.symm.trans h)
        simp [List.lookup, hbe, hne]
      · have hbe : (k' == k0) = false := by simpa using hk'
        simp only [List.lookup, hbe]
        exact ih

/-- The fields loop never changes a key that is already set. -/
theorem scanFields_preserves (extractAmt : String → Except String Rat) (line : String) :
    ∀ (fields : List (List String × String)) (m m' : Metadata),
      scanFields extractAmt line m fields = .ok m' →
      ∀ f v, m.lookup f = some v → m'.lookup f = some v := by
  intro fields
  induction fields with
  | nil =>
    intro m m' h f v hv
    simp only [scanFields, Except.ok.injEq] at h
    exact h ▸ hv
  | cons fd rest ih =>
    intro m m' h f v hv
    obtain ⟨starts, name⟩ := fd
    unfold scanFields at h
    by_cases hcond :
        (starts.any (fun st => startsWithTok st line) && (m.lookup name).isNone) = true
    · rw [if_pos hcond] at h
      cases he : extractAmt line with
      | error e => rw [he] at h; simp at h
      | ok q =>
        rw [he] at h
        simp only at h
        refine ih _ _ h f v ?_
        rw [lookup_dictInsert]
        have hnone : (m.lookup name).isNone = true := by
          have hc := hcond
          simp only [Bool.and_eq_true] at hc
          exact hc.2
        have hne : f ≠ name := by
          intro hfn
          rw [hfn] at hv
          rw [hv] at hnone
          simp at hnone
        rw [if_neg hne]
        exact hv
    · rw [if_neg hcond] at h
      exact ih _ _ h f v hv

/-- The fields loop leaves keys outside its field-name column untouched. -/
theorem scanFields_outside_keys (extractAmt : String → Except String Rat) (line : String) :
    ∀ (fields : List (List String × String)) (m m' : Metadata),
      scanFields extractAmt line m fields = .ok m' →
      ∀ f, (∀ fd ∈ fields, (fd : List String × String).2 ≠ f) →
        m'.lookup f = m.lookup f := by
  intro fields
  induction fields with
  | nil =>
    intro m m' h f _
    simp only [scanFields, Except.ok.injEq] at h
    exact h ▸ rfl
  | cons fd rest ih =>
    intro m m' h f hout
    obtain ⟨starts, name⟩ := fd
    unfold scanFields at h
    by_cases hcond :
        (starts.any (fun st => startsWithTok st line) && (m.lookup name).isNone) = true
    · rw [if_pos hcond] at h
      cases he : extractAmt line with
      | error e => rw [he] at h; simp at h
      | ok q =>
        rw [he] at h
        simp only at h
        rw [ih _ _ h f fun fd hfd => hout fd (List.mem_cons.2 (Or.inr hfd))]
        rw [lookup_dictInsert]
        exact if_neg fun hfn =>
          hout (starts, name) (List.mem_cons_self _ _) hfn.symm
    · rw [if_neg hcond] at h
      exact ih _ _ h f fun fd hfd => hout fd (List.mem_cons.2 (Or.inr hfd))

/-- The two date fields are set together: the dates branch assigns both at
once, and no dollar field writes to them. -/
def DatesTogether (m : Metadata) : Prop :=
  (m.lookup "beginning_date").isSome ↔ (m.lookup "ending_date").isSome

/-- One scanner line preserves every already-set field and the
date-pairing invariant. -/
theorem sapphireLineStep_preserves (extractAmt : String → Except String Rat)
    (extractDates : String → Except String (Int × Int)) (m : Metadata)
    (line : String) (m' : Metadata) (hInv : DatesTogether m)
    (h : sapphireLineStep extractAmt extractDates m line = .ok m') :
    DatesTogether m' ∧ ∀ f v, m.lookup f = some v → m'.lookup f = some v := by
  have hdates : ∀ fd ∈ sapphireFields,
      (fd : List String × String).2 ≠ "beginning_date" ∧
      (fd : List String × String).2 ≠ "ending_date" := by decide
  simp only [sapphireLineStep] at h
  by_cases hcond : (startsWithTok "opening/closingdate" (removeTicks line) &&
      ((m.lookup "beginning_date").isNone || (m.lookup "ending_date").isNone)) = true
  · rw [if_pos hcond] at h
    cases hd : extractDates (removeTicks line) with
    | error e => rw [hd] at h; simp at h
    | ok be =>
      obtain ⟨b, e⟩ := be
      rw [hd] at h
      simp only at h
      have hbn : m.lookup "beginning_date" = none ∧ m.lookup "ending_date" = none := by
        have hc := hcond
        simp only [Bool.and_eq_true, Bool.or_eq_true, Option.isNone_iff_eq_none] at hc
        rcases hc.2 with h1 | h1
        · refine ⟨h1, ?_⟩
          cases h2 : m.lookup "ending_date" with
          | none => rfl
          | some w =>
            have hs := hInv.2 (by simp [h2])
            rw [h1] at hs
            simp at hs
        · refine ⟨?_, h1⟩
          cases h2 : m.lookup "beginning_date" with
          | none => rfl
          | some w =>
            have hs := hInv.1 (by simp [h2])
            rw [h1] at hs
            simp at hs
      set m1 : Metadata :=
        dictInsert (dictInsert m "beginning_date" (.dt b)) "ending_date" (.dt e) with hm1
      have hm1b : m1.lookup "beginning_date" = some (.dt b) := by
        rw [hm1, lookup_dictInsert, lookup_dictInsert]
        simp
      have hm1e : m1.lookup "ending_date" = some (.dt e) := by
        rw [hm1, lookup_dictInsert]
        simp
      have hm1keep : ∀ f v, m.lookup f = some v → m1.lookup f = some v := by
        intro f v hv
        have hfb : f ≠ "beginning_date" := by
          intro hf; rw [hf, hbn.1] at hv; cases hv
        have hfe : f ≠ "ending_date" := by
          intro hf; rw [hf, hbn.2] at hv; cases hv
        rw [hm1, lookup_dictInsert, if_neg hfe, lookup_dictInsert, if_neg hfb]
        exact hv
      refine ⟨?_, fun f v hv => scanFields_preserves _ _ _ _ _ h f v (hm1keep f v hv)⟩
      have hb' := scanFields_outside_keys _ _ _ _ _ h "beginning_date"
        fun fd hfd => (hdates fd hfd).1
      have he' := scanFields_outside_keys _ _ _ _ _ h "ending_date"
        fun fd hfd => (hdates fd hfd).2
      rw [DatesTogether, hb', he', hm1b, hm1e]
      simp
  · rw [if_neg hcond] at h
    refine ⟨?_, fun f v hv => scanFields_preserves _ _ _ _ _ h f v hv⟩
    have hb' := scanFields_outside_keys _ _ _ _ _ h "beginning_date"
      fun fd hfd => (hdates fd hfd).1
    have he' := scanFields_outside_keys _ _ _ _ _ h "ending_date"
      fun fd hfd => (hdates fd hfd).2
    rw [DatesTogether, hb', he']
    exact hInv

/-- The scanner loop preserves every already-set field and the
date-pairing invariant. -/
theorem sapphireScan_go_preserves (extractAmt : String → Except String Rat)
    (extractDates : String → Except String (Int × Int)) :
    ∀ (lines : List String) (m m' : Metadata),
      lines.foldlM (sapphireLineStep extractAmt extractDates) m = .ok m' →
      DatesTogether m →
      DatesTogether m' ∧ ∀ f v, m.lookup f = some v → m'.lookup f = some v := by
  intro lines
  induction lines with
  | nil =>
    intro m m' h hInv
    simp only [List.foldlM_nil] at h
    cases h
    exact ⟨hInv, fun _ _ hv => hv⟩
  | cons l ls ih =>
    intro m m' h hInv
    rw [List.foldlM_cons] at h
    cases hstep : sapphireLineStep extractAmt extractDates m l with
    | error e => rw [hstep] at h; simp [Bind.bind, Except.bind] at h
    | ok m1 =>
      rw [hstep] at h
      have hbind : ls.foldlM (sapphireLineStep extractAmt extractDates) m1 = .ok m' := h
      obtain ⟨hInv1, hkeep1⟩ :=
        sapphireLineStep_preserves extractAmt extractDates m l m1 hInv hstep
      obtain ⟨hInv', hkeep'⟩ := ih m1 m' hbind hInv1
      exact ⟨hInv', fun f v hv => hkeep' f v (hkeep1 f v hv)⟩

/-- C8 (amended): in the Chase metadata scanners the first scanned line
matching a field's prefix token fixes that field's value — once a field is
in the metadata dict, scanning further lines cannot change it (the guard
`field["field_name"] not in metadata` skips later matches).  In the Apple
scanner (`apple.extract_metadata`) the assignment is unconditional, so
there the *last* matching line wins: see the counterexample. -/
theorem c8_sapphire_first_match_wins (extractAmt : String → Except String Rat)
    (extractDates : String → Except String (Int × Int)) (ls₁ ls₂ : List String)
    (f : String) (v : MetaVal) (m₁ m₂ : Metadata)
    (h1 : sapphireScan extractAmt extractDates ls₁ = .ok m₁)
    (h2 : sapphireScan extractAmt extractDates (ls₁ ++ ls₂) = .ok m₂)
    (hv : m₁.lookup f = some v) :
    m₂.lookup f = some v := by
  unfold sapphireScan at h1 h2
  rw [List.foldlM_append, h1] at h2
  have h2' : ls₂.foldlM (sapphireLineStep extractAmt extractDates) m₁ = .ok m₂ := h2
  have hInv0 : DatesTogether ([] : Metadata) := Iff.rfl
  have hInv1 : DatesTogether m₁ :=
    (sapphireScan_go_preserves extractAmt extractDates ls₁ [] m₁ h1 hInv0).1
  exact (sapphireScan_go_preserves extractAmt extractDates ls₂ m₁ m₂ h2' hInv1).2 f v hv

/-- Extraction stub for the witness: the dollar amounts of the two sample
lines. -/
def sapphireWitnessAmt : String → Except String Rat := fun s =>
  if s = "previousbalance$10.00" then .ok 10
  else if s = "previousbalance$99.00" then .ok 99
  else .error "Dollar amount was not detected"

def sapphireWitnessDates : String → Except String (Int × Int) := fun _ =>
  .error "Number of detected dates is not 2"

theorem c8_sapphire_first_match_wins_witness :
    sapphireScan sapphireWitnessAmt sapphireWitnessDates
      ["previousbalance$10.00", "previousbalance$99.00"] =
      .ok [("Beginning balance", .amt 10)] ∧
    List.lookup "Beginning balance" [("Beginning balance", MetaVal.amt 10)] =
      some (.amt 10) := by
  constructor
  · decide
  · exact c8_sapphire_first_match_wins sapphireWitnessAmt sapphireWitnessDates
      ["previousbalance$10.00"] ["previousbalance$99.00"] "Beginning balance"
      (.amt 10) [("Beginning balance", .amt 10)] [("Beginning balance", .amt 10)]
      (by decide) (by decide) (by decide)

/-! ### Apple `extract_metadata` (src/3_extract_data/apple.py)

The scanner walks `text.split("\n")`, classifying each row by substring
containment on `row.lower()` (previous/prior monthly balance, then
previous/prior total balance, then total balance) and assigning
`metadata[...] = {"Amount": extract_amount(row.replace(",", "")),
"Date": extract_date(rows[n + 1])}` unconditionally — no
"field already set" guard, unlike the Chase scanners. -/

/-- `str.lower()` on the ASCII range (the only case folding these
statements need). -/
def toLowerAscii (s : String) : String :=
  ⟨s.toList.map fun c =>
    if 65 ≤ c.toNat ∧ c.toNat ≤ 90 then Char.ofNat (c.toNat + 32) else c⟩

/-- `row.replace(",", "")`. -/
def removeCommas (s : String) : String :=
  ⟨s.toList.filter fun c => c ≠ ','⟩

/-- `text.split("\n")` (Python semantics: no empty-string collapsing). -/
def splitOnNewline (s : String) : List String :=
  let p := s.toList.foldr
    (fun c (acc : List Char × List String) =>
      if c = '\n' then ([], String.mk acc.1 :: acc.2) else (c :: acc.1, acc.2))
    ([], [])
  String.mk p.1 :: p.2

/-- The Apple metadata record: each balance is an `(Amount, Date)` pair. -/
structure AppleMeta where
  previous_monthly_balance : Option (Rat × Int)
  previous_total_balance : Option (Rat × Int)
  total_balance : Option (Rat × Int)
deriving DecidableEq, Repr

/-- The row loop of `extract_metadata`: classify `row.lower()` by
containment, read the amount from the row (commas stripped) and the date
from the next row, and assign the field unconditionally.  `rows[n + 1]`
past the end is an `IndexError`. -/
def appleScanRows (extractAmt : String → Except String Rat)
    (extractDate : String → Except String Int) :
    AppleMeta → List String → Except String AppleMeta
  | m, [] => .ok m
  | m, row :: rest =>
    let entry : Except String (Rat × Int) :=
      match rest.head? with
      | none => .error "list index out of range"
      | some nxt =>
        match extractAmt (removeCommas row) with
        | .error e => .error e
        | .ok a =>
          match extractDate nxt with
          | .error e => .error e
          | .ok d => .ok (a, d)
    let step : Except String AppleMeta :=
      if containsSub "previous monthly balance" (toLowerAscii row) ||
          containsSub "prior monthly balance" (toLowerAscii row) then
        match entry with
        | .error e => .error e
        | .ok v => .ok { m with previous_monthly_balance := some v }
      else if containsSub "previous total balance" (toLowerAscii row) ||
          containsSub "prior total balance" (toLowerAscii row) then
        match entry with
        | .error e => .error e
        | .ok v => .ok { m with previous_total_balance := some v }
      else if containsSub "total balance" (toLowerAscii row) then
        match entry with
        | .error e => .error e
        | .ok v => .ok { m with total_balance := some v }
      else .ok m
    match step with
    | .error e => .error e
    | .ok m' => appleScanRows extractAmt extractDate m' rest

/-- `initial_metadata_check`: the three keys must all be present, the two
previous balances must agree on Amount (or monthly = 0 with total < 0, per
the Oct 2022 statement) and on Date. -/
def initial_metadata_check (m : AppleMeta) : Except String Unit :=
  match m.previous_monthly_balance, m.previous_total_balance, m.total_balance with
  | some pmb, some ptb, some _tb =>
    if pmb.1 ≠ ptb.1 ∧ ¬(pmb.1 = 0 ∧ ptb.1 < 0) then
      .error "Amount from previous_monthly_balance is different than previous_total_balance"
    else if pmb.2 ≠ ptb.2 then
      .error "Date from previous_monthly_balance is different than previous_total_balance"
    else .ok ()
  | _, _, _ => .error "Extracted keys for metadata do not match expected values"

/-- The pinned legacy values for the two 2019 statements. -/
def extract_legacy_metadata (text : String) : AppleMeta :=
  let september : Rat × Int := (0, 20190930)
  let october : Rat × Int := (312/100, 20191031)
  let november : Rat × Int := (0, 20191130)
  if containsSub "Oct 11 — Oct 31, 2019" text then
    ⟨some september, some september, some october⟩
  else if containsSub "Nov 1 — Nov 30, 2019" text then
    ⟨some october, some october, some november⟩
  else ⟨none, none, none⟩

/-- `extract_metadata`: scan the first page's rows (or use the legacy
table) and validate with `initial_metadata_check`. -/
def apple_extract_metadata (extractAmt : String → Except String Rat)
    (extractDate : String → Except String Int) (text : String) :
    Except String AppleMeta :=
  if ¬containsSub "Oct 11 — Oct 31, 2019" text ∧
      ¬containsSub "Nov 1 — Nov 30, 2019" text then
    match appleScanRows extractAmt extractDate ⟨none, none, none⟩ (splitOnNewline text) with
    | .error e => .error e
    | .ok m =>
      match initial_metadata_check m with
      | .error e => .error e
      | .ok _ => .ok m
  else
    let m := extract_legacy_metadata text
    match initial_metadata_check m with
    | .error e => .error e
    | .ok _ => .ok m

/-- Extraction stubs for the counterexample statement text. -/
def appleCexAmt : String → Except String Rat := fun s =>
  if s = "previous monthly balance $0.00" then .ok 0
  else if s = "previous total balance $0.00" then .ok 0
  else if s = "total balance $2.00" then .ok 2
  else if s = "total balance $3.00" then .ok 3
  else .error "No dollar amount found in the line"

def appleCexDate : String → Except String Int := fun s =>
  if s = "as of Sep 30, 2022" then .ok 20220930
  else if s = "as of Oct 31, 2022" then .ok 20221031
  else .error "Date was not properly extracted"

/-- A statement text whose pages carry two "Total balance" rows with
different amounts (2.00 then 3.00). -/
def appleCexText : String :=
  "previous monthly balance $0.00\nas of Sep 30, 2022\n" ++
  "previous total balance $0.00\nas of Sep 30, 2022\n" ++
  "total balance $2.00\nas of Oct 31, 2022\n" ++
  "total balance $3.00\nas of Oct 31, 2022"

set_option maxRecDepth 20000 in
/-- C8 counterexample: in `apple.extract_metadata` a later line matching
the same field *does* overwrite the first value.  Scanning only through
the first "total balance" row yields amount 2.00, yet the full scan
returns 3.00 — the last match, not the first, determines
`total_balance`. -/
theorem c8_counterexample_apple_last_match_wins :
    appleScanRows appleCexAmt appleCexDate ⟨none, none, none⟩
      ((splitOnNewline appleCexText).take 6) =
      .ok ⟨some (0, 20220930), some (0, 20220930), some (2, 20221031)⟩ ∧
    apple_extract_metadata appleCexAmt appleCexDate appleCexText =
      .ok ⟨some (0, 20220930), some (0, 20220930), some (3, 20221031)⟩ ∧
    ((2 : Rat), (20221031 : Int)) ≠ ((3 : Rat), (20221031 : Int)) := by
  refine ⟨by decide, by decide, by decide⟩

/-! ### `commons.convert_to_decimal` (src/3_extract_data/commons.py)

`convert_to_decimal(amt)` strips `$` and `,` from the text and evaluates
the Decimal of the float formatted to two decimals.  Its numeric content
is a deterministic map on rationals: the stripped digit string of a
MoneyAmount `x` (exactly two fractional digits) denotes exactly the
rational `x`; CPython's `float()` is correctly rounded to the nearest
IEEE-754 binary64 (round-to-nearest, ties-to-even); and the two-decimal
formatting renders that binary value correctly rounded to two decimal
digits (ties-to-even again).  binary64 is modelled on its normal range,
which contains every nonzero two-decimal amount up to the overflow
threshold, far beyond the magnitudes in question. -/

/-- Round to the nearest integer, ties to the even integer. -/
def roundHalfEven (y : ℚ) : ℤ :=
  let f := ⌊y⌋
  if y - f < 1/2 then f
  else if 1/2 < y - f then f + 1
  else if f % 2 = 0 then f else f + 1

/-- The nearest binary64 value to `q` as an exact rational: scale `|q|`
into `[2^52, 2^53)`, round the significand half-to-even, and restore sign
and scale.  Models CPython `float(...)` on the normal range. -/
def float64RoundNearest (q : ℚ) : ℚ :=
  if q = 0 then 0
  else
    let e : ℤ := Int.log 2 |q|
    let scale : ℚ := 2 ^ (e - 52)
    (if q < 0 then (-1 : ℚ) else 1) * roundHalfEven (|q| / scale) * scale

/-- Two-decimal formatting of a binary value as a rational: correctly
rounded to hundredths, ties to even. -/
def format_two_decimals (d : ℚ) : ℚ := (roundHalfEven (d * 100) : ℚ) / 100

/-- The numeric content of `convert_to_decimal` applied to the formatted
text of the MoneyAmount `x`: strip `$`/`,` (the digits denote `x`
exactly), convert through `float`, format to two decimals, and read the
result back as an exact decimal. -/
def convert_to_decimal (x : ℚ) : ℚ := format_two_decimals (float64RoundNearest x)

/-- Half-to-even rounding moves a value by at most one half. -/
theorem roundHalfEven_sub_abs_le_half (y : ℚ) :
    |(roundHalfEven y : ℚ) - y| ≤ 1/2 := by
  have h1 := Int.floor_le y
  have h2 := Int.lt_floor_add_one y
  simp only [roundHalfEven]
  split_ifs with ha hb hc <;>
    (rw [abs_le]; constructor <;> push_cast <;> linarith)

/-- Half-to-even rounding of a value strictly within one half of an
integer returns that integer. -/
theorem roundHalfEven_eq_of_near (y : ℚ) (n : ℤ) (h : |y - n| < 1/2) :
    roundHalfEven y = n := by
  rw [abs_sub_lt_iff] at h
  obtain ⟨hlt, hgt⟩ := h
  by_cases hy : (n : ℚ) ≤ y
  · have hf : ⌊y⌋ = n := by
      rw [Int.floor_eq_iff]
      exact ⟨hy, by linarith⟩
    simp only [roundHalfEven, hf]
    rw [if_pos (by linarith)]
  · push_neg at hy
    have hf : ⌊y⌋ = n - 1 := by
      rw [Int.floor_eq_iff]
      constructor
      · push_cast; linarith
      · push_cast; linarith
    simp only [roundHalfEven, hf]
    rw [if_neg (by push_cast; linarith), if_pos (by push_cast; linarith)]
    omega

/-- The binary64 rounding error is at most half an ulp,
`2 ^ (Int.log 2 |q| - 53)`. -/
theorem float64_error_bound (q : ℚ) (hq : q ≠ 0) :
    |float64RoundNearest q - q| ≤ 2 ^ (Int.log 2 |q| - 53) := by
  have habs : (0:ℚ) < |q| := abs_pos.2 hq
  simp only [float64RoundNearest, if_neg hq]
  set e := Int.log 2 |q| with he
  set scale : ℚ := (2:ℚ) ^ (e - 52) with hscale
  have hs : (0:ℚ) < scale := zpow_pos (by norm_num) _
  have hr := roundHalfEven_sub_abs_le_half (|q| / scale)
  have key : abs ((roundHalfEven (|q| / scale) : ℚ) * scale - |q|) ≤ scale / 2 := by
    have hfac : (roundHalfEven (|q| / scale) : ℚ) * scale - |q| =
        ((roundHalfEven (|q| / scale) : ℚ) - |q| / scale) * scale := by
      field_simp
    rw [hfac, abs_mul, abs_of_pos hs]
    calc abs ((roundHalfEven (|q| / scale) : ℚ) - |q| / scale) * scale
        ≤ (1/2) * scale := mul_le_mul_of_nonneg_right hr (le_of_lt hs)
      _ = scale / 2 := by ring
  have hhalf : (2:ℚ) ^ (e - 53) = scale / 2 := by
    rw [show e - 53 = (e - 52) - 1 from by ring, zpow_sub₀ (two_ne_zero), zpow_one,
      hscale]
  by_cases hneg : q < 0
  · rw [if_pos hneg]
    have habsq : |q| = -q := abs_of_neg hneg
    have hflip : (-1 : ℚ) * (roundHalfEven (|q| / scale) : ℚ) * scale - q =
        -((roundHalfEven (|q| / scale) : ℚ) * scale - |q|) := by
      rw [habsq]; ring
    rw [hflip, abs_neg, hhalf]
    exact key
  · rw [if_neg hneg]
    have habsq : |q| = q := abs_of_nonneg (le_of_not_lt hneg)
    have hsame : (1 : ℚ) * (roundHalfEven (|q| / scale) : ℚ) * scale - q =
        (roundHalfEven (|q| / scale) : ℚ) * scale - |q| := by
      rw [habsq]; ring
    rw [hsame, hhalf]
    exact key

/-- C9 (amended): the float round-trip of `convert_to_decimal` is the
identity on every MoneyAmount of magnitude below `2^46` (about 70
trillion dollars): for `x = k/100`, stripping `$`/`,`, converting through
binary64 and re-formatting to two decimals returns exactly `x`.  Beyond
that bound binary64 spacing exceeds half a cent and the round-trip can
drift (see the counterexample), so the claim's unbounded universal fails
on the code. -/
theorem c9_convert_to_decimal_roundtrip (x : ℚ) (k : ℤ) (hk : x = (k : ℚ) / 100)
    (hb : |x| < 2 ^ (46 : ℕ)) :
    convert_to_decimal x = x := by
  by_cases hx0 : x = 0
  · subst hx0
    norm_num [convert_to_decimal, format_two_decimals, float64RoundNearest,
      roundHalfEven]
  · have habs : (0:ℚ) < |x| := abs_pos.2 hx0
    have he45 : Int.log 2 |x| ≤ 45 := by
      have hcast : |x| < ((2:ℕ):ℚ) ^ (46:ℤ) := by
        have h2 : ((2:ℕ):ℚ) ^ (46:ℤ) = (2:ℚ) ^ (46:ℕ) := by norm_num
        rw [h2]; exact hb
      have := (Int.lt_zpow_iff_log_lt one_lt_two habs).1 hcast
      omega
    have herr := float64_error_bound x hx0
    have hbound : (2:ℚ) ^ (Int.log 2 |x| - 53) ≤ (2:ℚ) ^ (-8 : ℤ) :=
      zpow_le_zpow_right₀ (by norm_num) (by omega)
    have hsmall : |float64RoundNearest x - x| < 1/200 := by
      calc |float64RoundNearest x - x| ≤ (2:ℚ) ^ (Int.log 2 |x| - 53) := herr
        _ ≤ (2:ℚ) ^ (-8:ℤ) := hbound
        _ < 1/200 := by norm_num
    have hr : roundHalfEven (float64RoundNearest x * 100) = k := by
      apply roundHalfEven_eq_of_near
      have heq : float64RoundNearest x * 100 - (k:ℚ) =
          100 * (float64RoundNearest x - x) := by
        rw [hk]; ring
      rw [heq, abs_mul, abs_of_nonneg (by norm_num : (0:ℚ) ≤ 100)]
      linarith
    unfold convert_to_decimal format_two_decimals
    rw [hr, hk]

theorem c9_convert_to_decimal_roundtrip_witness :
    convert_to_decimal ((12345 : ℚ) / 100) = (12345 : ℚ) / 100 :=
  c9_convert_to_decimal_roundtrip ((12345 : ℚ) / 100) 12345 (by norm_num)
    (by rw [abs_of_pos (by norm_num : (0:ℚ) < (12345 : ℚ) / 100)]; norm_num)

/-- C9 counterexample: the MoneyAmount `100000000000000.01` (two
fractional digits) does not survive the round-trip: its nearest binary64
is `100000000000000.015625`, which formats to `100000000000000.02`, so
`convert_to_decimal` returns a different amount — the unbounded claim is
false on the code. -/
theorem c9_counterexample_large_amount_drifts :
    convert_to_decimal ((10000000000000001 : ℚ) / 100) =
      (10000000000000002 : ℚ) / 100 ∧
    (10000000000000002 : ℚ) / 100 ≠ (10000000000000001 : ℚ) / 100 := by
  have hpos : (0:ℚ) < (10000000000000001:ℚ)/100 := by norm_num
  have habs : |(10000000000000001:ℚ)/100| = (10000000000000001:ℚ)/100 :=
    abs_of_pos hpos
  have hlog : Int.log 2 ((10000000000000001:ℚ)/100) = 46 := by
    have h1 : ((2:ℕ):ℚ) ^ (46:ℤ) ≤ (10000000000000001:ℚ)/100 := by norm_num
    have h2 : (10000000000000001:ℚ)/100 < ((2:ℕ):ℚ) ^ (47:ℤ) := by norm_num
    have l1 := (Int.zpow_le_iff_le_log one_lt_two hpos).1 h1
    have l2 := (Int.lt_zpow_iff_log_lt one_lt_two hpos).1 h2
    omega
  have hm : roundHalfEven ((10000000000000001:ℚ)/100 / (2:ℚ) ^ ((46:ℤ) - 52)) =
      6400000000000001 := by
    have harg : (10000000000000001:ℚ)/100 / (2:ℚ) ^ ((46:ℤ) - 52) =
        160000000000000016/25 := by norm_num
    rw [harg]
    have hf : ⌊(160000000000000016:ℚ)/25⌋ = 6400000000000000 := by
      rw [Int.floor_eq_iff]
      constructor <;> norm_num
    simp only [roundHalfEven, hf]
    rw [if_neg (by push_cast; norm_num), if_pos (by push_cast; norm_num)]
    norm_num
  have hfl : float64RoundNearest ((10000000000000001:ℚ)/100) =
      (6400000000000001:ℚ) / 64 := by
    simp only [float64RoundNearest]
    rw [if_neg (by norm_num), habs, hlog, if_neg (by norm_num), hm]
    norm_num
  constructor
  · unfold convert_to_decimal format_two_decimals
    rw [hfl]
    have harg2 : (6400000000000001:ℚ)/64 * 100 = 160000000000000025/16 := by
      norm_num
    rw [harg2]
    have hf2 : ⌊(160000000000000025:ℚ)/16⌋ = 10000000000000001 := by
      rw [Int.floor_eq_iff]
      constructor <;> norm_num
    simp only [roundHalfEven, hf2]
    rw [if_neg (by push_cast; norm_num), if_pos (by push_cast; norm_num)]
    norm_num
  · norm_num

end FinSpec
